import Mathlib

/-!
Verification of the core of the AICodingAgent repository against its design
specification.

The embedding covers, shallowly and executably:
* the pattern test of the `findFiles` tool (src/tools.js, lines 464-479);
* the `globalSearchReplace` engine (src/tools.js, lines 519-614), over an
  explicit file-system tree;
* the `browseDirectory` walker (src/tools.js, lines 294-420) and the walker of
  `findFiles` (src/tools.js, lines 446-498);
* the conversation driver loop of `executeCommand` / `handleAIRequest`
  (src/cli.js, lines 222-300 and 467-545), with the model gateway, the tools
  and the JavaScript runtime stack text abstracted as oracles.

Strings are modelled as `List Char`; file contents, names and message history
entries all use that representation.
-/

namespace Agent

/-- Strings of the JavaScript program, modelled as lists of characters. -/
abbrev Str := List Char

/-- Shorthand turning a Lean string literal into the `List Char` model. -/
def s2l (s : String) : Str := s.data

/-- Model of Node's `path.extname` on a plain file name (no directory
separators): the suffix starting at the last dot, and `""` when the name has
no dot or its only role is marking a hidden file (dot at position 0).  This is
Node's behaviour for every name `fs.readdir` can return except names made
entirely of dots, which the repository's trees never contain. -/
def extname (name : Str) : Str :=
  match (name.reverse.takeWhile (fun c => c ≠ '.')).length, name.length with
  | taken, total =>
    if taken = total then []                -- no dot at all
    else if total - taken - 1 = 0 then []   -- the last dot is the first char
    else name.drop (total - taken - 1)

/-- The JavaScript regular-expression line terminators, which `.` (and hence
the `.*` that `findFiles` substitutes for `*`) does not match. -/
def jsLineTerm (c : Char) : Bool :=
  c = '\n' || c = '\r' || c = '\u2028' || c = '\u2029'

/-- Model of JavaScript `hay.includes(needle)`: `needle` occurs contiguously
somewhere inside `hay`. -/
def jsIncludes (hay needle : Str) : Bool :=
  needle.isPrefixOf hay ||
    match hay with
    | [] => false
    | _ :: t => jsIncludes t needle

/-- One token of the regular expressions `findFiles` builds: a literal
character, `.` (any character except a line terminator), or `.*` (zero or
more such characters). -/
inductive RTok where
  | lit (c : Char)
  | dot
  | star
deriving DecidableEq

/-- Characters that are special to the JavaScript regular-expression engine.
`findFiles` compiles the user pattern without escaping, so the token model
`compileFindRegex` is faithful only to patterns whose characters outside
`*` and `.` avoid this list. -/
def jsRegexMeta : List Char :=
  ['\\', '^', '$', '+', '?', '(', ')', '[', ']', '\x7b', '\x7d', '|']

/-- Model of `pattern.replace(/\*/g, '.*')` compiled by `new RegExp`
(src/tools.js, lines 469-470): each `*` becomes `.*`, each `.` stays the
regex any-character, everything else is literal (valid for patterns without
other `jsRegexMeta` characters). -/
def compileFindRegex (pattern : Str) : List RTok :=
  pattern.map fun c => if c = '*' then RTok.star else if c = '.' then RTok.dot else RTok.lit c

/-- The suffixes of `s` that a `.*` can leave for the rest of the regex:
`s` itself, then ever shorter suffixes, stopping once a line terminator
(which `.` cannot consume) blocks further consumption. -/
def starSuffixes (s : Str) : List Str :=
  s ::
    match s with
    | [] => []
    | x :: xs => if jsLineTerm x then [] else starSuffixes xs

/-- Matching of a token list against a whole string: the semantics of
`new RegExp("^" ++ r ++ "$").test(s)` for the token fragment above. -/
def rmatch : List RTok → Str → Bool
  | [], s => s.isEmpty
  | RTok.lit c :: ts, s =>
    match s with
    | [] => false
    | x :: xs => c = x && rmatch ts xs
  | RTok.dot :: ts, s =>
    match s with
    | [] => false
    | x :: xs => !jsLineTerm x && rmatch ts xs
  | RTok.star :: ts, s => (starSuffixes s).any fun s' => rmatch ts s' 

/-- The pattern test of `findFiles` (src/tools.js, lines 464-479): a glob-via-
regex match when the pattern holds `*`, substring containment otherwise, and
independently a match when the extension filter list is nonempty and holds the
file's extension. -/
def findFilesMatches (name pattern : Str) (fileTypes : List Str) : Bool :=
  let mp :=
    if pattern.contains '*' then rmatch (compileFindRegex pattern) name
    else jsIncludes name pattern
  if !mp && fileTypes.length > 0 then fileTypes.contains (extname name) else mp

/-- All suffixes of a string, longest first. -/
def allSuffixes : Str → List Str
  | [] => [[]]
  | x :: xs => (x :: xs) :: allSuffixes xs

/-- Claim-side anchored wildcard matching, written from the specification's
words: `*` matches zero or more characters (a suffix is left for the rest of
the pattern), every other pattern character matches exactly itself, and the
whole filename must be consumed. -/
def globMatch : Str → Str → Bool
  | [], s => s.isEmpty
  | c :: ps, s =>
    if c = '*' then (allSuffixes s).any fun s' => globMatch ps s'
    else
      match s with
      | [] => false
      | x :: xs => c = x && globMatch ps xs

/-- Claim-side matcher for the file-find predicate, assembled from the
specification's words: rule (a) anchored literal glob when the pattern holds
the wildcard, rule (b) substring containment otherwise, rule (c) extension
membership, with (a)/(b) OR'd with (c). -/
def claimMatches (name pattern : Str) (fileTypes : List Str) : Bool :=
  (if pattern.contains '*' then globMatch pattern name else jsIncludes name pattern)
    || (!fileTypes.isEmpty && fileTypes.contains (extname name))

mutual
/-- A file-system tree entry: regular files carry size, modification time and
content; directories carry their children in `fs.readdir` enumeration order.
A mutual pair with `FsList` so that the walkers below are structural
recursions. -/
inductive FsEntry where
  | file (name : Str) (size : Nat) (mtime : Int) (content : Str)
  | dir (name : Str) (children : FsList)

/-- The entries of one directory, in enumeration order. -/
inductive FsList where
  | nil
  | cons (e : FsEntry) (es : FsList)
end

/-- The name of a tree entry. -/
def FsEntry.name : FsEntry → Str
  | .file n _ _ _ => n
  | .dir n _ => n

/-- Build an `FsList` from a Lean list, for concrete trees. -/
def fsl : List FsEntry → FsList
  | [] => FsList.nil
  | e :: es => FsList.cons e (fsl es)

/-- The entries of an `FsList` as a Lean list. -/
def FsList.toList : FsList → List FsEntry
  | .nil => []
  | .cons e es => e :: toList es

/-- Model of `content.split(searchText).length - 1` (src/tools.js, line 561):
the number of non-overlapping occurrences of `pat` in `s`, found scanning left
to right.  `globalSearchReplace` rejects an empty search text before this is
reached; on `pat = []` the model returns 0.  The fuel argument bounds the
number of scan steps and is immaterial whenever it is at least the length of
the remaining text. -/
def countOccGo (pat : Str) : Nat → Str → Nat
  | _, [] => 0
  | 0, _ :: _ => 0
  | fuel + 1, c :: s' =>
    match pat with
    | [] => 0
    | p0 :: p' =>
      if List.isPrefixOf (p0 :: p') (c :: s') then countOccGo pat fuel (s'.drop p'.length) + 1
      else countOccGo pat fuel s'

/-- `countOccGo` with enough fuel to scan all of `s` (each step consumes at
least one character, so `s.length` steps always suffice). -/
def countOcc (s pat : Str) : Nat := countOccGo pat s.length s

/-- Model of `content.replace(new RegExp(searchText, "g"), replaceText)`
(src/tools.js, line 568) for a search text free of `jsRegexMeta` characters
and a replacement free of `$` substitution patterns: every non-overlapping
occurrence of `pat`, scanning left to right, is replaced by `rep`.  The
unescaped regex compilation of the search text is the asymmetry the
specification flags; the claims settled here only use it on safe inputs. -/
def replaceAllGo (pat rep : Str) : Nat → Str → Str
  | _, [] => []
  | 0, s => s
  | fuel + 1, c :: s' =>
    match pat with
    | [] => c :: s'
    | p0 :: p' =>
      if List.isPrefixOf (p0 :: p') (c :: s') then
        rep ++ replaceAllGo pat rep fuel (s'.drop p'.length)
      else c :: replaceAllGo pat rep fuel s'

/-- `replaceAllGo` with enough fuel to scan all of `s`. -/
def replaceAllG (s pat rep : Str) : Str := replaceAllGo pat rep s.length s

/-- The raw input object of the `globalSearchReplace` tool: `none` models an
omitted (undefined) property. -/
structure SRInput where
  searchText : Str
  replaceText : Option Str := none
  fileTypes : Option (List Str) := none
  excludeDirs : Option (List Str) := none
  dryRun : Option Bool := none

/-- The configuration after the destructuring defaults of src/tools.js,
lines 523-530, have been applied. -/
structure SRConfig where
  searchText : Str
  replaceText : Option Str
  fileTypes : List Str
  excludeDirs : List Str
  dryRun : Bool

/-- Default file-type filter of `globalSearchReplace` (src/tools.js,
line 527). -/
def srDefaultFileTypes : List Str :=
  [s2l ".js", s2l ".ts", s2l ".jsx", s2l ".tsx", s2l ".json", s2l ".md"]

/-- Default excluded directories of the tools (src/tools.js, lines 304, 431
and 528). -/
def defaultExcludeDirs : List Str :=
  [s2l "node_modules", s2l ".git", s2l ".vscode", s2l ".idea"]

/-- The destructuring defaults of src/tools.js, lines 523-530: an omitted
property takes its default; `dryRun` defaults to `true`, `replaceText` has no
default. -/
def SRInput.resolve (i : SRInput) : SRConfig :=
  { searchText := i.searchText
    replaceText := i.replaceText
    fileTypes := i.fileTypes.getD srDefaultFileTypes
    excludeDirs := i.excludeDirs.getD defaultExcludeDirs
    dryRun := i.dryRun.getD true }

/-- One record of the `results.changes` list (src/tools.js, lines 571-581):
the file's path relative to the search root, as components. -/
structure SRChange where
  file : List Str
  matchCount : Nat
  replaced : Bool

/-- The accumulated counters of `globalSearchReplace` (src/tools.js,
lines 540-545). -/
structure SRStats where
  filesProcessed : Nat
  matchesFound : Nat
  replacements : Nat
  changes : List SRChange

/-- The empty counter record. -/
def SRStats.empty : SRStats := ⟨0, 0, 0, []⟩

/-- Counters of two traversal segments, combined in order. -/
def SRStats.add (a b : SRStats) : SRStats :=
  ⟨a.filesProcessed + b.filesProcessed, a.matchesFound + b.matchesFound,
    a.replacements + b.replacements, a.changes ++ b.changes⟩

mutual
/-- The body of `processDirectory` (src/tools.js, lines 547-593) on one entry:
a non-excluded directory is recursed into; a file passing the extension filter
has its occurrences counted, and is rewritten exactly when matches were found,
`dryRun` is false and a replacement text was provided.  Returns the entry as
left on disk and this entry's contribution to the counters. -/
def srEntry (cfg : SRConfig) (pfx : List Str) : FsEntry → FsEntry × SRStats
  | .dir n cs =>
    if cfg.excludeDirs.contains n then (.dir n cs, SRStats.empty)
    else
      let r := srList cfg (pfx ++ [n]) cs
      (.dir n r.1, r.2)
  | .file n sz mt content =>
    if cfg.fileTypes.isEmpty || cfg.fileTypes.contains (extname n) then
      let m := countOcc content cfg.searchText
      if m > 0 then
        if !cfg.dryRun && cfg.replaceText.isSome then
          (.file n sz mt (replaceAllG content cfg.searchText (cfg.replaceText.getD [])),
            ⟨1, m, m, [⟨pfx ++ [n], m, true⟩]⟩)
        else
          (.file n sz mt content, ⟨1, m, 0, [⟨pfx ++ [n], m, false⟩]⟩)
      else (.file n sz mt content, SRStats.empty)
    else (.file n sz mt content, SRStats.empty)

/-- `processDirectory` over a directory's entries in enumeration order. -/
def srList (cfg : SRConfig) (pfx : List Str) : FsList → FsList × SRStats
  | .nil => (FsList.nil, SRStats.empty)
  | .cons e es =>
    let r1 := srEntry cfg pfx e
    let r2 := srList cfg pfx es
    (FsList.cons r1.1 r2.1, r1.2.add r2.2)
end

/-- The `globalSearchReplace` tool (src/tools.js, lines 519-614) on a rooted
tree: an empty (falsy) search text is rejected before any traversal; otherwise
the tree is processed and the counters are reported.  The first component is
the tree as left on disk (unchanged when the input is rejected). -/
def globalSearchReplace (input : SRInput) (root : FsList) :
    FsList × Except Str SRStats :=
  if input.searchText.isEmpty then (root, .error (s2l "Search text is required"))
  else
    let r := srList input.resolve [] root
    (r.1, .ok r.2)

/-- Whether a name starts with the hidden-file marker (`entry.name.startsWith(".")`). -/
def startsWithDot : Str → Bool
  | '.' :: _ => true
  | _ => false

/-- Sign of `a.name.localeCompare(b.name)`, modelled for the default locale as
code-point lexicographic comparison; the claims proved below do not depend on
the order the comparator induces. -/
def strCmp : Str → Str → Int
  | [], [] => 0
  | [], _ :: _ => -1
  | _ :: _, [] => 1
  | a :: as, b :: bs => if a < b then -1 else if b < a then 1 else strCmp as bs

/-- The `sortBy` selector of `browseDirectory` (src/tools.js, lines 378-392). -/
inductive SortKey where
  | name
  | size
  | modified

/-- Stable insertion into a sorted list: `x` goes before the first element it
compares less-or-equal to. -/
def insertSorted (le : α → α → Bool) (x : α) : List α → List α
  | [] => [x]
  | y :: ys => if le x y then x :: y :: ys else y :: insertSorted le x ys

/-- Model of JavaScript `Array.prototype.sort` with a comparator: a stable
sort placing `a` before `b` when the comparator is nonpositive.  V8's sort is
a stable merge sort; the claims below depend only on which entries are
present, which any sort preserves. -/
def sortList (le : α → α → Bool) : List α → List α
  | [] => []
  | x :: xs => insertSorted le x (sortList le xs)

/-- The configuration of `browseDirectory` after destructuring defaults
(src/tools.js, lines 297-307); `descending` models `order === "desc"`. -/
structure BrowseConfig where
  recursive : Bool := false
  maxDepth : Nat := 3
  includeHidden : Bool := false
  fileTypes : List Str := []
  excludeDirs : List Str := defaultExcludeDirs
  sortBy : SortKey := SortKey.name
  descending : Bool := false

/-- A file record of `browseDirectory` (src/tools.js, lines 352-360); `path`
is `path.relative(absolutePath, fullPath)` kept as components. -/
structure BFileEntry where
  name : Str
  path : List Str
  size : Nat
  modified : Int
  depth : Nat
  extension : Str
deriving DecidableEq

/-- A directory record of `browseDirectory` (src/tools.js, lines 339-344). -/
structure BDirEntry where
  name : Str
  path : List Str
  depth : Nat
deriving DecidableEq

/-- The comparison number of `sortFunction` (src/tools.js, lines 378-392) on
file records, before the descending inversion. -/
def bFileCmp (k : SortKey) (a b : BFileEntry) : Int :=
  match k with
  | .name => strCmp a.name b.name
  | .size => (a.size : Int) - (b.size : Int)
  | .modified => a.modified - b.modified

/-- The comparison number of `sortFunction` on directory records: directory
records carry no `size` or `modified`, so `(a.size || 0)` makes those
comparisons 0. -/
def bDirCmp (k : SortKey) (a b : BDirEntry) : Int :=
  match k with
  | .name => strCmp a.name b.name
  | .size => 0
  | .modified => 0

/-- `order === "desc" ? -comparison : comparison`, turned into the sort's
before-or-tied test. -/
def sortLe (cmp : α → α → Int) (descending : Bool) (a b : α) : Bool :=
  if descending then -(cmp a b) ≤ 0 else cmp a b ≤ 0

mutual
/-- The body of `scanDirectory` of `browseDirectory` (src/tools.js,
lines 322-373) on one entry: hidden entries are skipped, excluded directory
entries are skipped, a remaining directory is recorded and recursed into when
`recursive` holds and `depth < maxDepth` (the recursive call repeats the
callee's own `currentDepth > maxDepth` guard, inlined here), and a remaining
file passing the extension filter is recorded. -/
def browseEntry (cfg : BrowseConfig) (depth : Nat) (pfx : List Str) :
    FsEntry → List BDirEntry × List BFileEntry
  | .dir n cs =>
    if !cfg.includeHidden && startsWithDot n then ([], [])
    else if cfg.excludeDirs.contains n then ([], [])
    else
      let sub :=
        if cfg.recursive && depth < cfg.maxDepth then
          if depth + 1 > cfg.maxDepth then ([], [])
          else browseEntries cfg (depth + 1) (pfx ++ [n]) cs
        else ([], [])
      (⟨n, pfx ++ [n], depth⟩ :: sub.1, sub.2)
  | .file n sz mt _ =>
    if !cfg.includeHidden && startsWithDot n then ([], [])
    else if cfg.fileTypes.isEmpty || cfg.fileTypes.contains (extname n) then
      ([], [⟨n, pfx ++ [n], sz, mt, depth, extname n⟩])
    else ([], [])

/-- The entry loop of `scanDirectory`, in enumeration order; the two global
accumulator arrays are modelled by concatenating each entry's records in
traversal order. -/
def browseEntries (cfg : BrowseConfig) (depth : Nat) (pfx : List Str) :
    FsList → List BDirEntry × List BFileEntry
  | .nil => ([], [])
  | .cons e es =>
    let r1 := browseEntry cfg depth pfx e
    let r2 := browseEntries cfg depth pfx es
    (r1.1 ++ r2.1, r1.2 ++ r2.2)
end

/-- `scanDirectory` itself: the `currentDepth > maxDepth` guard at function
entry, then the entry loop. -/
def browseScan (cfg : BrowseConfig) (depth : Nat) (pfx : List Str)
    (entries : FsList) : List BDirEntry × List BFileEntry :=
  if depth > cfg.maxDepth then ([], [])
  else browseEntries cfg depth pfx entries

/-- The result object of `browseDirectory` (src/tools.js, lines 313-320 and
394-395): the collected records, sorted by the configured comparator, plus the
totals the collection accumulated. -/
structure BrowseResult where
  files : List BFileEntry
  directories : List BDirEntry
  totalFiles : Nat
  totalDirs : Nat
  totalSize : Nat

/-- The `browseDirectory` tool (src/tools.js, lines 294-420) on a rooted tree. -/
def browseDirectory (cfg : BrowseConfig) (root : FsList) : BrowseResult :=
  let c := browseScan cfg 0 [] root
  { files := sortList (sortLe (bFileCmp cfg.sortBy) cfg.descending) c.2
    directories := sortList (sortLe (bDirCmp cfg.sortBy) cfg.descending) c.1
    totalFiles := c.2.length
    totalDirs := c.1.length
    totalSize := (c.2.map (fun f => f.size)).sum }

/-- The configuration of `findFiles` after destructuring defaults
(src/tools.js, lines 427-434). -/
structure FindConfig where
  pattern : Str
  fileTypes : List Str := []
  excludeDirs : List Str := defaultExcludeDirs
  maxDepth : Nat := 5
  includeHidden : Bool := false

/-- A record of the `findFiles` results (src/tools.js, lines 483-489). -/
structure FindEntry where
  name : Str
  path : List Str
  size : Nat
  modified : Int
  extension : Str
deriving DecidableEq

mutual
/-- The body of `searchDirectory` of `findFiles` (src/tools.js,
lines 446-496) on one entry: hidden entries skipped, excluded directories
skipped, other directories recursed into unconditionally — the callee's
`currentDepth > maxDepth` guard, inlined here, enforces the ceiling — and
files recorded when the pattern test succeeds. -/
def findEntry (cfg : FindConfig) (depth : Nat) (pfx : List Str) :
    FsEntry → List FindEntry
  | .dir n cs =>
    if !cfg.includeHidden && startsWithDot n then []
    else if cfg.excludeDirs.contains n then []
    else if depth + 1 > cfg.maxDepth then []
    else findEntries cfg (depth + 1) (pfx ++ [n]) cs
  | .file n sz mt _ =>
    if !cfg.includeHidden && startsWithDot n then []
    else if findFilesMatches n cfg.pattern cfg.fileTypes then
      [⟨n, pfx ++ [n], sz, mt, extname n⟩]
    else []

/-- The entry loop of `searchDirectory`, in enumeration order. -/
def findEntries (cfg : FindConfig) (depth : Nat) (pfx : List Str) :
    FsList → List FindEntry
  | .nil => []
  | .cons e es => findEntry cfg depth pfx e ++ findEntries cfg depth pfx es
end

/-- `searchDirectory` itself: the depth guard at function entry, then the
entry loop. -/
def findScan (cfg : FindConfig) (depth : Nat) (pfx : List Str)
    (entries : FsList) : List FindEntry :=
  if depth > cfg.maxDepth then []
  else findEntries cfg depth pfx entries

/-- The `findFiles` tool (src/tools.js, lines 423-516) on a rooted tree: an
empty (falsy) pattern is rejected, otherwise the matching file records are
collected. -/
def findFiles (cfg : FindConfig) (root : FsList) : Except Str (List FindEntry) :=
  if cfg.pattern.isEmpty then .error (s2l "Search pattern is required")
  else .ok (findScan cfg 0 [] root)

mutual
/-- `tree` with the children of every directory whose name is excluded
replaced by `[]`: what a walker that never enumerates inside excluded
directories cannot distinguish from `tree`. -/
def pruneEntry (excl : List Str) : FsEntry → FsEntry
  | .file n sz mt c => .file n sz mt c
  | .dir n cs => if excl.contains n then .dir n FsList.nil else .dir n (pruneList excl cs)

/-- `pruneEntry` over a list of siblings. -/
def pruneList (excl : List Str) : FsList → FsList
  | .nil => FsList.nil
  | .cons e es => FsList.cons (pruneEntry excl e) (pruneList excl es)
end

/-- One parsed step of the conversation protocol (the JSON shapes of
src/cli.js, lines 64-69); `other` stands for any well-formed JSON value whose
`type` is none of the four tags, which the loop body falls through without
acting on. -/
inductive Step where
  | plan (plan : Str)
  | action (function : Str) (input : Str)
  | output (output : Str) (summary : Option Str)
  | observation (observation : Str)
  | other

/-- Whether a step is the terminal Output step. -/
def Step.isOutput : Step → Bool
  | .output _ _ => true
  | _ => false

/-- What one `model.generateContent` round trip yields: a thrown error
(caught by the outer catch of the loop), or raw response text together with
the result of `JSON.parse` on it (`none` models a parse failure). -/
inductive GwResult where
  | failure (msg : Str)
  | reply (raw : Str) (parsed : Option Step)

/-- What running a registered tool's `fn` yields: a resolved string, or a
thrown error with its message and stack text. -/
inductive ToolOutcome where
  | ok (result : Str)
  | err (message : Str) (stack : Str)

/-- The external collaborators of the driver loop, as oracles: the model
gateway (a function of the full message history), the behaviour of each
registered tool on each input, and the JavaScript stack text of the
`Tool '...' not found` error the driver itself throws (src/cli.js,
line 256), as a function of the unknown tool's name. -/
structure DriverEnv where
  gw : List Str → GwResult
  toolRun : Str → Str → ToolOutcome
  notFoundStack : Str → Str

/-- The keys of the `tools` registry object (src/tools.js, lines 10-1121),
in declaration order. -/
def toolNames : List Str :=
  [s2l "executeCommand", s2l "readFile", s2l "writeFile", s2l "listFiles",
    s2l "analyzeError", s2l "searchInFiles", s2l "getSystemInfo",
    s2l "browseDirectory", s2l "findFiles", s2l "globalSearchReplace",
    s2l "createProject", s2l "backupWorkspace", s2l "getConfig", s2l "setConfig",
    s2l "listTemplates", s2l "addTemplate", s2l "removeTemplate", s2l "resetConfig",
    s2l "generateCode", s2l "implementFeature", s2l "refactorCode",
    s2l "createAPI", s2l "generateApp"]

/-- The registry lookup `tools[step.function]` read as a truthiness test
(src/cli.js, line 255). -/
def toolRegistered (f : Str) : Bool := toolNames.contains f

/-- The observation text synthesized for an action step (src/cli.js,
lines 255-272): `Success: <result>` when the registered tool resolves, and
`Error: <message>\nStack: <stack>` when the tool throws — or when the name is
unregistered, in which case the caught error is the driver's own
`Tool '<name>' not found`. -/
def actionObservation (env : DriverEnv) (f inp : Str) : Str :=
  if toolRegistered f then
    match env.toolRun f inp with
    | .ok r => s2l "Success: " ++ r
    | .err m st => s2l "Error: " ++ m ++ s2l "\nStack: " ++ st
  else
    s2l "Error: Tool '" ++ f ++ s2l "' not found" ++ s2l "\nStack: " ++ env.notFoundStack f

/-- JSON string escaping of the characters the observations here can contain
(quote, backslash, and the common control characters), as
`JSON.stringify` performs it. -/
def jsonEscapeChar (c : Char) : Str :=
  if c = '"' then ['\\', '"']
  else if c = '\\' then ['\\', '\\']
  else if c = '\n' then ['\\', 'n']
  else if c = '\r' then ['\\', 'r']
  else if c = '\t' then ['\\', 't']
  else [c]

/-- `JSON.stringify({ type: "observation", observation: s })` (src/cli.js,
lines 260-266). -/
def serializeObservation (s : Str) : Str :=
  s2l "\x7b\"type\":\"observation\",\"observation\":\""
    ++ (s.foldr (fun c acc => jsonEscapeChar c ++ acc) [])
    ++ s2l "\"\x7d"

/-- How one run of the driver loop ended. -/
inductive LoopExit where
  | completed
  | parseError (raw : Str)
  | driverError (msg : Str)
  | budgetExhausted
deriving DecidableEq

/-- An externally visible event of the loop, in chronological order: a
`model.generateContent` call, an invocation of a registered tool's `fn`, or
an observation appended to the history. -/
inductive Event where
  | modelCall
  | toolInvoked (name : Str) (input : Str)
  | observationAppended (text : Str)

/-- The state the loop leaves behind: the final `stepCount`, the message
history, the events of this run in order, how the loop exited, and whether
the `Maximum steps reached` warning prints afterwards (src/cli.js,
lines 297-299: it prints iff `stepCount >= maxSteps` on exit). -/
structure LoopResult where
  stepCount : Nat
  messages : List Str
  events : List Event
  exit : LoopExit
  maxStepsMessage : Bool

/-- One unfolding of the `while (stepCount < maxSteps)` loop of
`executeCommand` (src/cli.js, lines 235-295), identical in `handleAIRequest`
(lines 480-540), with `fuel` the number of remaining guard successes
(`maxSteps - stepCount`, see `runLoop`): increment the counter, call the
gateway on the joined history, parse, append the raw response, dispatch on
the step's tag.  A parse failure or a gateway error breaks out; an action
synthesizes an observation (invoking the tool only when registered), appends
it and continues; an output breaks out; anything else continues.  The
`maxStepsMessage` field records whether `stepCount >= maxSteps` holds on
exit, the condition of the warning at src/cli.js, lines 297-299. -/
def loopGo (env : DriverEnv) (maxSteps : Nat) :
    Nat → List Str → Nat → LoopResult
  | 0, messages, stepCount => ⟨stepCount, messages, [], .budgetExhausted, true⟩
  | fuel + 1, messages, stepCount =>
    let sc := stepCount + 1
    match env.gw messages with
    | .failure m => ⟨sc, messages, [.modelCall], .driverError m, decide (maxSteps ≤ sc)⟩
    | .reply raw parsed =>
      match parsed with
      | none => ⟨sc, messages, [.modelCall], .parseError raw, decide (maxSteps ≤ sc)⟩
      | some step =>
        match step with
        | .action f inp =>
          let obs := actionObservation env f inp
          let rest := loopGo env maxSteps fuel (messages ++ [raw, serializeObservation obs]) sc
          { rest with
              events := .modelCall ::
                ((if toolRegistered f then [Event.toolInvoked f inp] else []) ++
                  (.observationAppended obs :: rest.events)) }
        | .output _ _ =>
          ⟨sc, messages ++ [raw], [.modelCall], .completed, decide (maxSteps ≤ sc)⟩
        | _ =>
          let rest := loopGo env maxSteps fuel (messages ++ [raw]) sc
          { rest with events := .modelCall :: rest.events }

/-- The driver loop from a given `stepCount`: the guard `stepCount < maxSteps`
succeeds exactly `maxSteps - stepCount` more times when no break occurs, so
that difference serves as structural fuel. -/
def runLoop (env : DriverEnv) (messages : List Str) (stepCount maxSteps : Nat) :
    LoopResult :=
  loopGo env maxSteps (maxSteps - stepCount) messages stepCount

/-- Number of model calls among a run's events. -/
def modelCalls (es : List Event) : Nat :=
  es.countP fun e => match e with | .modelCall => true | _ => false

/-- The step budget of `executeCommand` and `handleAIRequest` (src/cli.js,
lines 233 and 478). -/
def cliMaxSteps : Nat := 20

/-! ### Helper lemmas -/

/-- `any` respects pointwise equality on the list's members. -/
theorem any_congr_mem {l : List α} {f g : α → Bool}
    (h : ∀ a ∈ l, f a = g a) : l.any f = l.any g := by
  induction l with
  | nil => rfl
  | cons x xs ih =>
    simp only [List.any_cons, h x (List.mem_cons_self x xs)]
    rw [ih fun a ha => h a (List.mem_cons_of_mem x ha)]

/-- Without line terminators in `s`, the `.*` suffixes are all suffixes. -/
theorem starSuffixes_eq_allSuffixes (s : Str)
    (h : ∀ c ∈ s, jsLineTerm c = false) : starSuffixes s = allSuffixes s := by
  induction s with
  | nil => rfl
  | cons x xs ih =>
    rw [starSuffixes, allSuffixes, h x (List.mem_cons_self x xs),
      if_neg (by simp), ih fun c hc => h c (List.mem_cons_of_mem x hc)]

/-- Every member of `allSuffixes s` is a subset of `s` as a character set. -/
theorem allSuffixes_subset (s : Str) :
    ∀ s' ∈ allSuffixes s, ∀ c ∈ s', c ∈ s := by
  induction s with
  | nil => intro s' hs'; simp [allSuffixes] at hs'; simp [hs']
  | cons x xs ih =>
    intro s' hs'
    rw [allSuffixes] at hs'
    rcases List.mem_cons.mp hs' with h | h
    · simp [h]
    · intro c hc; exact List.mem_cons_of_mem x (ih s' h c hc)

/-- Unfolding of `compileFindRegex` on a cons. -/
theorem compileFindRegex_cons (c : Char) (ps : Str) :
    compileFindRegex (c :: ps) =
      (if c = '*' then RTok.star else if c = '.' then RTok.dot else RTok.lit c)
        :: compileFindRegex ps := rfl

/-- On patterns free of the dot, the regex the code compiles agrees with the
claim's literal anchored glob, for names free of line terminators. -/
theorem rmatch_compile_eq_globMatch (p : Str) (hp : ∀ c ∈ p, ¬c = '.') :
    ∀ s : Str, (∀ c ∈ s, jsLineTerm c = false) →
      rmatch (compileFindRegex p) s = globMatch p s := by
  induction p with
  | nil => intro s _; rfl
  | cons c ps ih =>
    intro s hs
    have hps : ∀ a ∈ ps, ¬a = '.' := fun a ha => hp a (List.mem_cons_of_mem c ha)
    by_cases hc : c = '*'
    · subst hc
      rw [compileFindRegex_cons, if_pos rfl]
      show rmatch (RTok.star :: _) s = globMatch ('*' :: ps) s
      simp only [rmatch, globMatch, if_pos rfl]
      rw [starSuffixes_eq_allSuffixes s hs]
      exact any_congr_mem fun s' hs' =>
        ih hps s' fun a ha => hs a (allSuffixes_subset s s' hs' a ha)
    · have hcd : ¬c = '.' := hp c (List.mem_cons_self c ps)
      rw [compileFindRegex_cons, if_neg hc, if_neg hcd]
      show rmatch (RTok.lit c :: _) s = globMatch (c :: ps) s
      simp only [rmatch, globMatch, if_neg hc]
      cases s with
      | nil => rfl
      | cons x xs =>
        have hxs : ∀ a ∈ xs, jsLineTerm a = false :=
          fun a ha => hs a (List.mem_cons_of_mem x ha)
        show (decide (c = x) && rmatch (compileFindRegex ps) xs) =
          (decide (c = x) && globMatch ps xs)
        rw [ih hps xs hxs]

/-! ### C4: the file-find matcher -/

/-- C4, counterexample: the pattern `a.c*` contains the wildcard, so by the
claim every non-wildcard character — including the dot — should be matched
literally, rejecting the filename `abc`; the code compiles the dot into the
regex any-character and accepts `abc`. -/
theorem findFiles_pattern_dot_counterexample :
    findFilesMatches (s2l "abc") (s2l "a.c*") [] = true ∧
      claimMatches (s2l "abc") (s2l "a.c*") [] = false := by
  decide

/-- C4, amended: the equivalence of the code's matcher with the claim's rules
(a)/(b)/(c) holds for patterns whose characters, outside the wildcard, are
neither the regex any-character `.` nor any other character special to the
regex engine (the code compiles the pattern unescaped), and for filenames
free of line-terminator characters (which the compiled `.*` cannot match). -/
theorem findFiles_matcher_amended (name pattern : Str) (fileTypes : List Str)
    (hp : pattern.all (fun c => !jsRegexMeta.contains c && !(c = '.')) = true)
    (hn : name.all (fun c => !jsLineTerm c) = true) :
    findFilesMatches name pattern fileTypes = claimMatches name pattern fileTypes := by
  have hdot : ∀ c ∈ pattern, ¬c = '.' := by
    intro c hc
    have := (List.all_eq_true.mp hp) c hc
    simpa using (Bool.and_elim_right this)
  have hlt : ∀ c ∈ name, jsLineTerm c = false := by
    intro c hc
    simpa using (List.all_eq_true.mp hn) c hc
  unfold findFilesMatches claimMatches
  rw [rmatch_compile_eq_globMatch pattern hdot name hlt]
  cases hmp : (if pattern.contains '*' then globMatch pattern name
      else jsIncludes name pattern) <;>
    cases fileTypes <;> simp [hmp]

/-- C4, witness for the amended theorem at a concrete safe input: the pattern
`*js` (wildcard, no dot, no special character) accepts `a.js` under both the
code's matcher and the claim's rules. -/
theorem findFiles_matcher_amended_witness :
    ((s2l "*js").all (fun c => !jsRegexMeta.contains c && !(c = '.')) = true ∧
      (s2l "a.js").all (fun c => !jsLineTerm c) = true) ∧
    findFilesMatches (s2l "a.js") (s2l "*js") [] = claimMatches (s2l "a.js") (s2l "*js") [] :=
  ⟨⟨by decide, by decide⟩,
    findFiles_matcher_amended (s2l "a.js") (s2l "*js") [] (by decide) (by decide)⟩

/-! ### C5: the concrete search-and-replace run -/

/-- C5: on a directory holding exactly one eligible file with content `aaa`,
running the tool with search `a`, replacement `b` and `dryRun = false`
rewrites the file to `bbb` and reports 3 matches (the non-overlapping
occurrence count) and 3 replacements, in one per-file change record. -/
theorem globalSearchReplace_single_file_aaa :
    globalSearchReplace ⟨s2l "a", some (s2l "b"), none, none, some false⟩
        (fsl [FsEntry.file (s2l "a.js") 3 0 (s2l "aaa")]) =
      (fsl [FsEntry.file (s2l "a.js") 3 0 (s2l "bbb")],
        Except.ok ⟨1, 3, 3, [⟨[s2l "a.js"], 3, true⟩]⟩) := by
  rfl

mutual
/-- Under `dryRun = true` the engine leaves an entry exactly as it found it
and counts no replacement. -/
theorem srEntry_dry (cfg : SRConfig) (h : cfg.dryRun = true) (pfx : List Str) :
    (e : FsEntry) → (srEntry cfg pfx e).1 = e ∧ (srEntry cfg pfx e).2.replacements = 0
  | .file n sz mt c => by
    simp only [srEntry, h, Bool.not_true, Bool.false_and]
    split
    · split
      · simp
      · simp [SRStats.empty]
    · simp [SRStats.empty]
  | .dir n cs => by
    simp only [srEntry]
    split
    · simp [SRStats.empty]
    · have ih := srList_dry cfg h (pfx ++ [n]) cs
      simp [ih.1, ih.2]

/-- `srEntry_dry` over a directory's entries. -/
theorem srList_dry (cfg : SRConfig) (h : cfg.dryRun = true) (pfx : List Str) :
    (es : FsList) → (srList cfg pfx es).1 = es ∧ (srList cfg pfx es).2.replacements = 0
  | .nil => ⟨rfl, rfl⟩
  | .cons e es => by
    have ih1 := srEntry_dry cfg h pfx e
    have ih2 := srList_dry cfg h pfx es
    simp only [srList]
    exact ⟨by simp [ih1.1, ih2.1], by simp [SRStats.add, ih1.2, ih2.2]⟩
end

mutual
/-- When no write can happen (`dryRun` true, or no replacement text), the
engine behaves on an entry exactly as it does with `dryRun := true`. -/
theorem srEntry_asDry (cfg : SRConfig)
    (h : (!cfg.dryRun && cfg.replaceText.isSome) = false) (pfx : List Str) :
    (e : FsEntry) → srEntry cfg pfx e = srEntry { cfg with dryRun := true } pfx e
  | .file n sz mt c => by
    simp only [srEntry, h, Bool.not_true, Bool.false_and]
  | .dir n cs => by
    simp only [srEntry]
    split
    · rfl
    · rw [srList_asDry cfg h (pfx ++ [n]) cs]

/-- `srEntry_asDry` over a directory's entries. -/
theorem srList_asDry (cfg : SRConfig)
    (h : (!cfg.dryRun && cfg.replaceText.isSome) = false) (pfx : List Str) :
    (es : FsList) → srList cfg pfx es = srList { cfg with dryRun := true } pfx es
  | .nil => rfl
  | .cons e es => by
    simp only [srList]
    rw [srEntry_asDry cfg h pfx e, srList_asDry cfg h pfx es]
end

/-! ### C6: dry runs leave every file byte-identical -/

/-- C6: for every tree and every input with `dryRun = true`, the
search/replace tool performs no file write — the resulting tree is the tree
it was given. -/
theorem dryRun_preserves_tree (input : SRInput) (root : FsList)
    (h : input.dryRun = some true) :
    (globalSearchReplace input root).1 = root := by
  unfold globalSearchReplace
  split
  · rfl
  · exact (srList_dry input.resolve (by simp [SRInput.resolve, h]) [] root).1

/-- C6, witness: a concrete dry run over a matching file leaves the tree
unchanged. -/
theorem dryRun_preserves_tree_witness :
    (globalSearchReplace ⟨s2l "a", some (s2l "b"), none, none, some true⟩
        (fsl [FsEntry.file (s2l "a.js") 3 0 (s2l "aaa")])).1 =
      fsl [FsEntry.file (s2l "a.js") 3 0 (s2l "aaa")] :=
  dryRun_preserves_tree _ _ rfl

/-! ### C10: omitted dryRun or omitted replaceText behaves as a dry run -/

/-- C10: when the input omits `dryRun` (which defaults to `true`), or omits
`replaceText` (without which the write branch is unreachable), the tool
behaves exactly as the corresponding explicit dry run: the same report is
produced, no file is written, and the replacements counter stays 0. -/
theorem omitted_dryRun_or_replaceText_acts_dry (input : SRInput) (root : FsList)
    (h : input.dryRun = none ∨ input.replaceText = none) :
    globalSearchReplace input root =
      globalSearchReplace { input with dryRun := some true } root ∧
    (globalSearchReplace input root).1 = root ∧
    ∀ st, (globalSearchReplace input root).2 = Except.ok st → st.replacements = 0 := by
  have hres : SRInput.resolve { input with dryRun := some true } =
      { input.resolve with dryRun := true } := by
    simp [SRInput.resolve]
  have hmain : globalSearchReplace input root =
      globalSearchReplace { input with dryRun := some true } root := by
    unfold globalSearchReplace
    rcases h with h | h
    · have : SRInput.resolve { input with dryRun := some true } = input.resolve := by
        simp [SRInput.resolve, h]
      rw [this]
    · have hw : (!input.resolve.dryRun && input.resolve.replaceText.isSome) = false := by
        simp [SRInput.resolve, h]
      split
      · rfl
      · rw [srList_asDry input.resolve hw [] root, hres]
  refine ⟨hmain, ?_, ?_⟩
  · rw [hmain]
    unfold globalSearchReplace
    split
    · rfl
    · exact (srList_dry _ (by rw [hres]) [] root).1
  · intro st hst
    rw [hmain] at hst
    unfold globalSearchReplace at hst
    split at hst
    · exact absurd hst (by simp)
    · have := (srList_dry (SRInput.resolve { input with dryRun := some true })
        (by rw [hres]) [] root).2
      simp only [Except.ok.injEq] at hst
      rw [hst] at this
      exact this

/-- C10, witness: with `dryRun = false` but `replaceText` omitted, a matching
file is reported but not rewritten and replacements stay 0. -/
theorem omitted_dryRun_or_replaceText_acts_dry_witness :
    (globalSearchReplace ⟨s2l "a", none, none, none, some false⟩
        (fsl [FsEntry.file (s2l "a.js") 3 0 (s2l "aaa")])).1 =
      fsl [FsEntry.file (s2l "a.js") 3 0 (s2l "aaa")] :=
  (omitted_dryRun_or_replaceText_acts_dry
    ⟨s2l "a", none, none, none, some false⟩ _ (Or.inr rfl)).2.1

/-! ### Walker lemmas -/

/-- Membership is invariant under `insertSorted`. -/
theorem mem_insertSorted (le : α → α → Bool) (x a : α) (l : List α) :
    a ∈ insertSorted le x l ↔ a = x ∨ a ∈ l := by
  induction l with
  | nil => simp [insertSorted]
  | cons y ys ih =>
    rw [insertSorted]
    split
    · simp
    · simp only [List.mem_cons, ih]
      tauto

/-- Membership is invariant under the sort model. -/
theorem mem_sortList (le : α → α → Bool) (a : α) (l : List α) :
    a ∈ sortList le l ↔ a ∈ l := by
  induction l with
  | nil => simp [sortList]
  | cons x xs ih => rw [sortList, mem_insertSorted]; simp [ih]

mutual
/-- Within a prefix free of excluded components, every directory record the
browse walk produces has a path free of excluded components, and every file
record has all its proper-ancestor components (its path minus the final file
name) free of excluded components. -/
theorem browseEntry_no_excluded (cfg : BrowseConfig) (depth : Nat) (pfx : List Str)
    (hpfx : ∀ c ∈ pfx, c ∉ cfg.excludeDirs) :
    (e : FsEntry) →
    (∀ d ∈ (browseEntry cfg depth pfx e).1, ∀ c ∈ d.path, c ∉ cfg.excludeDirs) ∧
    (∀ f ∈ (browseEntry cfg depth pfx e).2, ∀ c ∈ f.path.dropLast, c ∉ cfg.excludeDirs)
  | .file n sz mt ct => by
    rw [browseEntry]
    split
    · simp
    · split
      · refine ⟨by simp, ?_⟩
        intro f hf c hc
        rw [List.mem_singleton] at hf
        subst hf
        simp only [List.dropLast_concat] at hc
        exact hpfx c hc
      · simp
  | .dir n cs => by
    rw [browseEntry]
    split
    · simp
    · split
      · simp
      · rename_i hx
        have hn : n ∉ cfg.excludeDirs := by simp_all
        have hpfx' : ∀ c ∈ pfx ++ [n], c ∉ cfg.excludeDirs := by
          intro c hc
          rcases List.mem_append.mp hc with h | h
          · exact hpfx c h
          · rw [List.mem_singleton] at h; subst h; exact hn
        constructor
        · intro d hd c hc
          rw [List.mem_cons] at hd
          rcases hd with hd | hd
          · subst hd; exact hpfx' c hc
          · split at hd
            · split at hd
              · simp at hd
              · exact (browseEntries_no_excluded cfg (depth + 1) (pfx ++ [n]) hpfx' cs).1 d hd c hc
            · simp at hd
        · intro f hf c hc
          split at hf
          · split at hf
            · simp at hf
            · exact (browseEntries_no_excluded cfg (depth + 1) (pfx ++ [n]) hpfx' cs).2 f hf c hc
          · simp at hf

/-- `browseEntry_no_excluded` over a directory's entries. -/
theorem browseEntries_no_excluded (cfg : BrowseConfig) (depth : Nat) (pfx : List Str)
    (hpfx : ∀ c ∈ pfx, c ∉ cfg.excludeDirs) :
    (es : FsList) →
    (∀ d ∈ (browseEntries cfg depth pfx es).1, ∀ c ∈ d.path, c ∉ cfg.excludeDirs) ∧
    (∀ f ∈ (browseEntries cfg depth pfx es).2, ∀ c ∈ f.path.dropLast, c ∉ cfg.excludeDirs)
  | .nil => by simp [browseEntries]
  | .cons e es => by
    have ih1 := browseEntry_no_excluded cfg depth pfx hpfx e
    have ih2 := browseEntries_no_excluded cfg depth pfx hpfx es
    rw [browseEntries]
    constructor
    · intro d hd
      rcases List.mem_append.mp hd with h | h
      · exact ih1.1 d h
      · exact ih2.1 d h
    · intro f hf
      rcases List.mem_append.mp hf with h | h
      · exact ih1.2 f h
      · exact ih2.2 f h
end

mutual
/-- The browse walk never looks inside an excluded directory: replacing the
children of every excluded directory changes nothing. -/
theorem browseEntry_prune (cfg : BrowseConfig) (depth : Nat) (pfx : List Str) :
    (e : FsEntry) →
    browseEntry cfg depth pfx (pruneEntry cfg.excludeDirs e) = browseEntry cfg depth pfx e
  | .file n sz mt ct => rfl
  | .dir n cs => by
    rw [pruneEntry]
    by_cases hx : cfg.excludeDirs.contains n = true
    · rw [if_pos hx, browseEntry, browseEntry]
      by_cases hh : (!cfg.includeHidden && startsWithDot n) = true
      · rw [if_pos hh, if_pos hh]
      · rw [if_neg hh, if_neg hh, if_pos hx, if_pos hx]
    · rw [if_neg hx, browseEntry, browseEntry]
      by_cases hh : (!cfg.includeHidden && startsWithDot n) = true
      · rw [if_pos hh, if_pos hh]
      · rw [if_neg hh, if_neg hh, if_neg hx, if_neg hx]
        simp only [browseEntries_prune cfg (depth + 1) (pfx ++ [n]) cs]

/-- `browseEntry_prune` over a directory's entries. -/
theorem browseEntries_prune (cfg : BrowseConfig) (depth : Nat) (pfx : List Str) :
    (es : FsList) →
    browseEntries cfg depth pfx (pruneList cfg.excludeDirs es) = browseEntries cfg depth pfx es
  | .nil => rfl
  | .cons e es => by
    rw [pruneList, browseEntries, browseEntries,
      browseEntry_prune cfg depth pfx e, browseEntries_prune cfg depth pfx es]
end

mutual
/-- Every file record the find walk produces, within a prefix free of
excluded components, has its proper-ancestor components free of excluded
components. -/
theorem findEntry_no_excluded (cfg : FindConfig) (depth : Nat) (pfx : List Str)
    (hpfx : ∀ c ∈ pfx, c ∉ cfg.excludeDirs) :
    (e : FsEntry) →
    ∀ r ∈ findEntry cfg depth pfx e, ∀ c ∈ r.path.dropLast, c ∉ cfg.excludeDirs
  | .file n sz mt ct => by
    rw [findEntry]
    split
    · simp
    · split
      · intro r hr c hc
        rw [List.mem_singleton] at hr
        subst hr
        simp only [List.dropLast_concat] at hc
        exact hpfx c hc
      · simp
  | .dir n cs => by
    rw [findEntry]
    split
    · simp
    · split
      · simp
      · split
        · simp
        · rename_i hx _
          have hn : n ∉ cfg.excludeDirs := by simp_all
          have hpfx' : ∀ c ∈ pfx ++ [n], c ∉ cfg.excludeDirs := by
            intro c hc
            rcases List.mem_append.mp hc with h | h
            · exact hpfx c h
            · rw [List.mem_singleton] at h; subst h; exact hn
          exact findEntries_no_excluded cfg (depth + 1) (pfx ++ [n]) hpfx' cs

/-- `findEntry_no_excluded` over a directory's entries. -/
theorem findEntries_no_excluded (cfg : FindConfig) (depth : Nat) (pfx : List Str)
    (hpfx : ∀ c ∈ pfx, c ∉ cfg.excludeDirs) :
    (es : FsList) →
    ∀ r ∈ findEntries cfg depth pfx es, ∀ c ∈ r.path.dropLast, c ∉ cfg.excludeDirs
  | .nil => by simp [findEntries]
  | .cons e es => by
    intro r hr
    rw [findEntries] at hr
    rcases List.mem_append.mp hr with h | h
    · exact findEntry_no_excluded cfg depth pfx hpfx e r h
    · exact findEntries_no_excluded cfg depth pfx hpfx es r h
end

mutual
/-- The find walk never looks inside an excluded directory. -/
theorem findEntry_prune (cfg : FindConfig) (depth : Nat) (pfx : List Str) :
    (e : FsEntry) →
    findEntry cfg depth pfx (pruneEntry cfg.excludeDirs e) = findEntry cfg depth pfx e
  | .file n sz mt ct => rfl
  | .dir n cs => by
    rw [pruneEntry]
    by_cases hx : cfg.excludeDirs.contains n = true
    · rw [if_pos hx, findEntry, findEntry]
      by_cases hh : (!cfg.includeHidden && startsWithDot n) = true
      · rw [if_pos hh, if_pos hh]
      · rw [if_neg hh, if_neg hh, if_pos hx, if_pos hx]
    · rw [if_neg hx, findEntry, findEntry]
      by_cases hh : (!cfg.includeHidden && startsWithDot n) = true
      · rw [if_pos hh, if_pos hh]
      · rw [if_neg hh, if_neg hh, if_neg hx, if_neg hx]
        simp only [findEntries_prune cfg (depth + 1) (pfx ++ [n]) cs]

/-- `findEntry_prune` over a directory's entries. -/
theorem findEntries_prune (cfg : FindConfig) (depth : Nat) (pfx : List Str) :
    (es : FsList) →
    findEntries cfg depth pfx (pruneList cfg.excludeDirs es) = findEntries cfg depth pfx es
  | .nil => rfl
  | .cons e es => by
    rw [pruneList, findEntries, findEntries,
      findEntry_prune cfg depth pfx e, findEntries_prune cfg depth pfx es]
end

/-! ### C7: excluded directories are pruned -/

/-- C7, counterexample: the exclusion test applies only to directory entries,
so a regular file named `node_modules` is recorded even though its relative
path consists of an excluded directory name; the claim as stated rules out
every such entry. -/
theorem walk_excluded_component_counterexample :
    ¬ (∀ f ∈ (browseDirectory {} (fsl [FsEntry.file (s2l "node_modules") 1 0 []])).files,
        ∀ comp ∈ f.path, comp ∉ BrowseConfig.excludeDirs {}) := by
  decide

/-- C7, amended: no recorded directory record carries an excluded component
anywhere in its path; no recorded entry of either walker lies inside an
excluded directory (its path's proper-ancestor components are never
excluded — only a file's own final name may coincide with an excluded name);
and neither walker ever enumerates the contents of an excluded directory
(emptying every excluded directory's children changes nothing). -/
theorem walk_never_inside_excluded (cfg : BrowseConfig) (root : FsList)
    (fcfg : FindConfig) (froot : FsList) :
    (∀ d ∈ (browseDirectory cfg root).directories, ∀ c ∈ d.path, c ∉ cfg.excludeDirs) ∧
    (∀ f ∈ (browseDirectory cfg root).files, ∀ c ∈ f.path.dropLast, c ∉ cfg.excludeDirs) ∧
    browseDirectory cfg (pruneList cfg.excludeDirs root) = browseDirectory cfg root ∧
    (∀ r ∈ findScan fcfg 0 [] froot, ∀ c ∈ r.path.dropLast, c ∉ fcfg.excludeDirs) ∧
    findScan fcfg 0 [] (pruneList fcfg.excludeDirs froot) = findScan fcfg 0 [] froot := by
  have hpfx : ∀ c ∈ ([] : List Str), c ∉ cfg.excludeDirs := by simp
  have hfpfx : ∀ c ∈ ([] : List Str), c ∉ fcfg.excludeDirs := by simp
  refine ⟨?_, ?_, ?_, ?_, ?_⟩
  · intro d hd
    rw [browseDirectory] at hd
    simp only [mem_sortList] at hd
    unfold browseScan at hd
    split at hd
    · simp at hd
    · exact (browseEntries_no_excluded cfg 0 [] hpfx root).1 d hd
  · intro f hf
    rw [browseDirectory] at hf
    simp only [mem_sortList] at hf
    unfold browseScan at hf
    split at hf
    · simp at hf
    · exact (browseEntries_no_excluded cfg 0 [] hpfx root).2 f hf
  · rw [browseDirectory, browseDirectory]
    unfold browseScan
    split
    · rfl
    · rw [browseEntries_prune cfg 0 [] root]
  · intro r hr
    unfold findScan at hr
    split at hr
    · simp at hr
    · exact findEntries_no_excluded fcfg 0 [] hfpfx froot r hr
  · unfold findScan
    split
    · rfl
    · rw [findEntries_prune fcfg 0 [] froot]

/-- C7, witness for the amended theorem: the recorded directory `src` of a
concrete walk has no excluded component in its path. -/
theorem walk_never_inside_excluded_witness :
    (s2l "src") ∉ BrowseConfig.excludeDirs {} :=
  (walk_never_inside_excluded {} (fsl [FsEntry.dir (s2l "src") FsList.nil])
      { pattern := s2l "x" } FsList.nil).1
    ⟨s2l "src", [s2l "src"], 0⟩ (by decide) (s2l "src") (by decide)

mutual
/-- When the walk processes a directory level at `depth ≤ maxDepth`, every
record it produces carries a depth at most `maxDepth`. -/
theorem browseEntry_depth_le (cfg : BrowseConfig) (depth : Nat) (pfx : List Str)
    (h : depth ≤ cfg.maxDepth) :
    (e : FsEntry) →
    (∀ d ∈ (browseEntry cfg depth pfx e).1, d.depth ≤ cfg.maxDepth) ∧
    (∀ f ∈ (browseEntry cfg depth pfx e).2, f.depth ≤ cfg.maxDepth)
  | .file n sz mt ct => by
    rw [browseEntry]
    split
    · simp
    · split
      · constructor
        · simp
        · intro f hf
          rw [List.mem_singleton] at hf
          subst hf
          exact h
      · simp
  | .dir n cs => by
    rw [browseEntry]
    split
    · simp
    · split
      · simp
      · constructor
        · intro d hd
          rw [List.mem_cons] at hd
          rcases hd with hd | hd
          · subst hd; exact h
          · split at hd
            · rename_i hrec
              have hlt : depth < cfg.maxDepth := by
                have := (Bool.and_elim_right hrec)
                exact of_decide_eq_true this
              split at hd
              · simp at hd
              · exact (browseEntries_depth_le cfg (depth + 1) (pfx ++ [n]) hlt cs).1 d hd
            · simp at hd
        · intro f hf
          split at hf
          · rename_i hrec
            have hlt : depth < cfg.maxDepth := by
              have := (Bool.and_elim_right hrec)
              exact of_decide_eq_true this
            split at hf
            · simp at hf
            · exact (browseEntries_depth_le cfg (depth + 1) (pfx ++ [n]) hlt cs).2 f hf
          · simp at hf

/-- `browseEntry_depth_le` over a directory's entries. -/
theorem browseEntries_depth_le (cfg : BrowseConfig) (depth : Nat) (pfx : List Str)
    (h : depth ≤ cfg.maxDepth) :
    (es : FsList) →
    (∀ d ∈ (browseEntries cfg depth pfx es).1, d.depth ≤ cfg.maxDepth) ∧
    (∀ f ∈ (browseEntries cfg depth pfx es).2, f.depth ≤ cfg.maxDepth)
  | .nil => by simp [browseEntries]
  | .cons e es => by
    have ih1 := browseEntry_depth_le cfg depth pfx h e
    have ih2 := browseEntries_depth_le cfg depth pfx h es
    rw [browseEntries]
    constructor
    · intro d hd
      rcases List.mem_append.mp hd with hm | hm
      · exact ih1.1 d hm
      · exact ih2.1 d hm
    · intro f hf
      rcases List.mem_append.mp hf with hm | hm
      · exact ih1.2 f hm
      · exact ih2.2 f hm
end

/-- With `maxDepth = 0`, the entry loop at the root never recurses: every
record is an immediate child of the root, at depth 0, with a one-component
path. -/
theorem browseEntries_maxDepth_zero (cfg : BrowseConfig) (h0 : cfg.maxDepth = 0) :
    (es : FsList) →
    (∀ d ∈ (browseEntries cfg 0 [] es).1,
      d.depth = 0 ∧ d.path = [d.name] ∧ ∃ cs, FsEntry.dir d.name cs ∈ es.toList) ∧
    (∀ f ∈ (browseEntries cfg 0 [] es).2,
      f.depth = 0 ∧ f.path = [f.name] ∧
        ∃ sz mt ct, FsEntry.file f.name sz mt ct ∈ es.toList)
  | .nil => by simp [browseEntries]
  | .cons e es => by
    have ih := browseEntries_maxDepth_zero cfg h0 es
    rw [browseEntries]
    constructor
    · intro d hd
      rcases List.mem_append.mp hd with hm | hm
      · cases e with
        | file n sz mt ct =>
          rw [browseEntry] at hm
          split at hm
          · simp at hm
          · split at hm
            · simp at hm
            · simp at hm
        | dir n cs =>
          rw [browseEntry] at hm
          split at hm
          · simp at hm
          · split at hm
            · simp at hm
            · have hrec : (cfg.recursive && decide (0 < cfg.maxDepth)) = false := by
                rw [h0]; simp
              rw [if_neg (by rw [hrec]; simp)] at hm
              rw [List.mem_cons] at hm
              rcases hm with hm | hm
              · subst hm
                exact ⟨rfl, rfl, cs, by simp [FsList.toList]⟩
              · simp at hm
      · obtain ⟨h1, h2, cs, h3⟩ := ih.1 d hm
        exact ⟨h1, h2, cs, by simp [FsList.toList, h3]⟩
    · intro f hf
      rcases List.mem_append.mp hf with hm | hm
      · cases e with
        | file n sz mt ct =>
          rw [browseEntry] at hm
          split at hm
          · simp at hm
          · split at hm
            · rw [List.mem_singleton] at hm
              subst hm
              exact ⟨rfl, rfl, sz, mt, ct, by simp [FsList.toList]⟩
            · simp at hm
        | dir n cs =>
          rw [browseEntry] at hm
          split at hm
          · simp at hm
          · split at hm
            · simp at hm
            · have hrec : (cfg.recursive && decide (0 < cfg.maxDepth)) = false := by
                rw [h0]; simp
              rw [if_neg (by rw [hrec]; simp)] at hm
              simp at hm
      · obtain ⟨h1, h2, sz, mt, ct, h3⟩ := ih.2 f hm
        exact ⟨h1, h2, sz, mt, ct, by simp [FsList.toList, h3]⟩

/-! ### C8: depth ceiling -/

/-- C8: with `maxDepth = 0` and `recursive = true` the browse records exactly
the root's immediate children (each record is at depth 0, with a
one-component path naming an immediate child of the root), and for every
configuration the depth of every recorded entry is at most `maxDepth`. -/
theorem browse_depth_bounds (cfg : BrowseConfig) (root : FsList) :
    (cfg.maxDepth = 0 → cfg.recursive = true →
      (∀ d ∈ (browseDirectory cfg root).directories,
        d.depth = 0 ∧ d.path = [d.name] ∧ ∃ cs, FsEntry.dir d.name cs ∈ root.toList) ∧
      (∀ f ∈ (browseDirectory cfg root).files,
        f.depth = 0 ∧ f.path = [f.name] ∧
          ∃ sz mt ct, FsEntry.file f.name sz mt ct ∈ root.toList)) ∧
    (∀ d ∈ (browseDirectory cfg root).directories, d.depth ≤ cfg.maxDepth) ∧
    (∀ f ∈ (browseDirectory cfg root).files, f.depth ≤ cfg.maxDepth) := by
  refine ⟨fun h0 _ => ?_, ?_, ?_⟩
  · have hz := browseEntries_maxDepth_zero cfg h0 root
    constructor
    · intro d hd
      rw [browseDirectory] at hd
      simp only [mem_sortList] at hd
      unfold browseScan at hd
      split at hd
      · simp at hd
      · exact hz.1 d hd
    · intro f hf
      rw [browseDirectory] at hf
      simp only [mem_sortList] at hf
      unfold browseScan at hf
      split at hf
      · simp at hf
      · exact hz.2 f hf
  · intro d hd
    rw [browseDirectory] at hd
    simp only [mem_sortList] at hd
    unfold browseScan at hd
    split at hd
    · simp at hd
    · rename_i hg
      exact (browseEntries_depth_le cfg 0 [] (by omega) root).1 d hd
  · intro f hf
    rw [browseDirectory] at hf
    simp only [mem_sortList] at hf
    unfold browseScan at hf
    split at hf
    · simp at hf
    · rename_i hg
      exact (browseEntries_depth_le cfg 0 [] (by omega) root).2 f hf

/-- C8, witness: on a concrete tree with `maxDepth = 0` and `recursive`
set, the single recorded directory is the root's immediate child at
depth 0. -/
theorem browse_depth_bounds_witness :
    (⟨s2l "src", [s2l "src"], 0⟩ : BDirEntry).depth = 0 ∧
    (⟨s2l "src", [s2l "src"], 0⟩ : BDirEntry).path = [(⟨s2l "src", [s2l "src"], 0⟩ : BDirEntry).name] ∧
    ∃ cs, FsEntry.dir (⟨s2l "src", [s2l "src"], 0⟩ : BDirEntry).name cs ∈
      (fsl [FsEntry.dir (s2l "src") FsList.nil]).toList :=
  ((browse_depth_bounds { maxDepth := 0, recursive := true }
      (fsl [FsEntry.dir (s2l "src") FsList.nil])).1 rfl rfl).1
    ⟨s2l "src", [s2l "src"], 0⟩ (by decide)

/-! ### Driver-loop lemmas -/

/-- Counting model calls through a leading call event. -/
theorem modelCalls_call_cons (es : List Event) :
    modelCalls (Event.modelCall :: es) = modelCalls es + 1 := by
  simp [modelCalls, List.countP_cons]

/-- Observation events do not count as model calls. -/
theorem modelCalls_obs_cons (t : Str) (es : List Event) :
    modelCalls (Event.observationAppended t :: es) = modelCalls es := by
  simp [modelCalls, List.countP_cons]

/-- Tool-invocation events do not count as model calls. -/
theorem modelCalls_tool_cons (f i : Str) (es : List Event) :
    modelCalls (Event.toolInvoked f i :: es) = modelCalls es := by
  simp [modelCalls, List.countP_cons]

/-- When every gateway reply parses to a non-Output step, the loop runs its
fuel down completely: it exits with the budget outcome, makes one model call
per fuel unit, and the max-steps warning fires. -/
theorem loopGo_no_output (env : DriverEnv) (ms : Nat)
    (h : ∀ msgs, ∃ raw st, env.gw msgs = GwResult.reply raw (some st) ∧ st.isOutput = false) :
    ∀ fuel msgs sc,
      (loopGo env ms fuel msgs sc).stepCount = sc + fuel ∧
      (loopGo env ms fuel msgs sc).exit = LoopExit.budgetExhausted ∧
      (loopGo env ms fuel msgs sc).maxStepsMessage = true ∧
      modelCalls (loopGo env ms fuel msgs sc).events = fuel := by
  intro fuel
  induction fuel with
  | zero => intro msgs sc; exact ⟨rfl, rfl, rfl, rfl⟩
  | succ fuel ih =>
    intro msgs sc
    obtain ⟨raw, st, hgw, hout⟩ := h msgs
    rw [loopGo, hgw]
    cases st with
    | output o sm => simp [Step.isOutput] at hout
    | plan pl =>
      dsimp only
      have r := ih (msgs ++ [raw]) (sc + 1)
      exact ⟨by rw [r.1]; omega, r.2.1, r.2.2.1, by rw [modelCalls_call_cons, r.2.2.2]⟩
    | observation ob =>
      dsimp only
      have r := ih (msgs ++ [raw]) (sc + 1)
      exact ⟨by rw [r.1]; omega, r.2.1, r.2.2.1, by rw [modelCalls_call_cons, r.2.2.2]⟩
    | other =>
      dsimp only
      have r := ih (msgs ++ [raw]) (sc + 1)
      exact ⟨by rw [r.1]; omega, r.2.1, r.2.2.1, by rw [modelCalls_call_cons, r.2.2.2]⟩
    | action f inp =>
      dsimp only
      have r := ih (msgs ++ [raw, serializeObservation (actionObservation env f inp)]) (sc + 1)
      refine ⟨by rw [r.1]; omega, r.2.1, r.2.2.1, ?_⟩
      cases hreg : toolRegistered f with
      | false =>
        simp only [Bool.false_eq_true, if_false, List.nil_append]
        rw [modelCalls_call_cons, modelCalls_obs_cons, r.2.2.2]
      | true =>
        simp only [if_true, List.singleton_append]
        rw [modelCalls_call_cons, modelCalls_tool_cons, modelCalls_obs_cons, r.2.2.2]

/-- Whenever the loop guard passes, the first event of the run is a model
call. -/
theorem runLoop_events_head (env : DriverEnv) (msgs : List Str) (sc ms : Nat)
    (h : sc < ms) :
    (runLoop env msgs sc ms).events.head? = some Event.modelCall := by
  unfold runLoop
  obtain ⟨fuel, hf⟩ : ∃ fuel, ms - sc = fuel + 1 := ⟨ms - sc - 1, by omega⟩
  rw [hf, loopGo]
  cases env.gw msgs with
  | failure m => rfl
  | reply raw parsed =>
    cases parsed with
    | none => rfl
    | some st => cases st <;> rfl

/-! ### C1: the step budget -/

/-- C1: when every model response parses to a valid non-Output step, the
driver performs exactly the configured budget of model calls — 20, the
`maxSteps` of src/cli.js — then exits through the budget outcome with the
`Maximum steps reached` warning, and never issues a call beyond the budget. -/
theorem driver_budget_exhaustion (env : DriverEnv) (msgs0 : List Str)
    (h : ∀ msgs, ∃ raw st, env.gw msgs = GwResult.reply raw (some st) ∧ st.isOutput = false) :
    (runLoop env msgs0 0 cliMaxSteps).exit = LoopExit.budgetExhausted ∧
    modelCalls (runLoop env msgs0 0 cliMaxSteps).events = 20 ∧
    (runLoop env msgs0 0 cliMaxSteps).maxStepsMessage = true := by
  have r := loopGo_no_output env cliMaxSteps h (cliMaxSteps - 0) msgs0 0
  exact ⟨r.2.1, r.2.2.2, r.2.2.1⟩

/-- A gateway that always replies with a plan step, for the budget witness. -/
def planEnv : DriverEnv :=
  ⟨fun _ => GwResult.reply (s2l "p") (some (Step.plan (s2l "p"))),
    fun _ _ => ToolOutcome.ok [], fun _ => []⟩

/-- C1, witness: under the always-plan gateway the loop makes exactly 20
calls and reports budget exhaustion. -/
theorem driver_budget_exhaustion_witness :
    (runLoop planEnv [] 0 cliMaxSteps).exit = LoopExit.budgetExhausted ∧
    modelCalls (runLoop planEnv [] 0 cliMaxSteps).events = 20 ∧
    (runLoop planEnv [] 0 cliMaxSteps).maxStepsMessage = true :=
  driver_budget_exhaustion planEnv []
    (fun _ => ⟨s2l "p", Step.plan (s2l "p"), rfl, rfl⟩)

/-! ### C2: parse failures are fatal -/

/-- C2: when the response to a model call fails to parse, the driver stops at
once: the history is left exactly as it was (no raw text, no synthesized
observation is appended), no tool is invoked, and no further model call is
issued — the run's only event is the one failing call. -/
theorem driver_parse_failure_terminates (env : DriverEnv) (msgs : List Str)
    (sc ms : Nat) (raw : Str) (h1 : sc < ms)
    (h2 : env.gw msgs = GwResult.reply raw none) :
    runLoop env msgs sc ms =
      ⟨sc + 1, msgs, [Event.modelCall], LoopExit.parseError raw, decide (ms ≤ sc + 1)⟩ := by
  unfold runLoop
  obtain ⟨fuel, hf⟩ : ∃ fuel, ms - sc = fuel + 1 := ⟨ms - sc - 1, by omega⟩
  rw [hf, loopGo, h2]

/-- A gateway whose response never parses, for the parse-failure witness. -/
def parseFailEnv : DriverEnv :=
  ⟨fun _ => GwResult.reply (s2l "not json") none,
    fun _ _ => ToolOutcome.ok [], fun _ => []⟩

/-- C2, witness: the first unparseable response ends the run after exactly
one model call, with the history untouched. -/
theorem driver_parse_failure_terminates_witness :
    runLoop parseFailEnv [] 0 cliMaxSteps =
      ⟨1, [], [Event.modelCall], LoopExit.parseError (s2l "not json"), false⟩ :=
  driver_parse_failure_terminates parseFailEnv [] 0 cliMaxSteps (s2l "not json")
    (by decide) rfl

/-! ### C3: unknown tools produce observations, and the loop continues -/

/-- C3: an action step naming an unregistered tool makes the driver append a
`Tool '<name>' not found` observation (after the raw response) and continue
the loop — the remainder of the run is a fresh run from the extended history,
and, the budget permitting, its first event is another model call; likewise a
registered tool whose execution fails is recorded as an observation and the
loop continues.  Tool failures never terminate the run by themselves. -/
theorem driver_unknown_tool_continues (env : DriverEnv) (msgs : List Str)
    (sc ms : Nat) (raw f inp : Str)
    (h1 : sc + 1 < ms)
    (h2 : env.gw msgs = GwResult.reply raw (some (Step.action f inp))) :
    (toolRegistered f = false →
      actionObservation env f inp =
        s2l "Error: Tool '" ++ f ++ s2l "' not found" ++ s2l "\nStack: "
          ++ env.notFoundStack f ∧
      runLoop env msgs sc ms =
        { runLoop env (msgs ++ [raw, serializeObservation (actionObservation env f inp)])
            (sc + 1) ms with
            events := Event.modelCall ::
              Event.observationAppended (actionObservation env f inp) ::
                (runLoop env (msgs ++ [raw, serializeObservation (actionObservation env f inp)])
                  (sc + 1) ms).events } ∧
      (runLoop env (msgs ++ [raw, serializeObservation (actionObservation env f inp)])
          (sc + 1) ms).events.head? = some Event.modelCall) ∧
    (toolRegistered f = true →
      runLoop env msgs sc ms =
        { runLoop env (msgs ++ [raw, serializeObservation (actionObservation env f inp)])
            (sc + 1) ms with
            events := Event.modelCall :: Event.toolInvoked f inp ::
              Event.observationAppended (actionObservation env f inp) ::
                (runLoop env (msgs ++ [raw, serializeObservation (actionObservation env f inp)])
                  (sc + 1) ms).events } ∧
      (runLoop env (msgs ++ [raw, serializeObservation (actionObservation env f inp)])
          (sc + 1) ms).events.head? = some Event.modelCall) := by
  have hstep : runLoop env msgs sc ms =
      { runLoop env (msgs ++ [raw, serializeObservation (actionObservation env f inp)])
          (sc + 1) ms with
          events := Event.modelCall ::
            ((if toolRegistered f then [Event.toolInvoked f inp] else []) ++
              (Event.observationAppended (actionObservation env f inp) ::
                (runLoop env
                  (msgs ++ [raw, serializeObservation (actionObservation env f inp)])
                  (sc + 1) ms).events)) } := by
    conv =>
      lhs
      unfold runLoop
    obtain ⟨fuel, hf⟩ : ∃ fuel, ms - sc = fuel + 1 := ⟨ms - sc - 1, by omega⟩
    have hf2 : ms - (sc + 1) = fuel := by omega
    rw [hf, loopGo, h2]
    unfold runLoop
    rw [hf2]
  have hhead := runLoop_events_head env
    (msgs ++ [raw, serializeObservation (actionObservation env f inp)]) (sc + 1) ms h1
  constructor
  · intro hreg
    refine ⟨by rw [actionObservation, if_neg (by simp [hreg])], ?_, hhead⟩
    rw [hstep, hreg]
    simp only [Bool.false_eq_true, if_false, List.nil_append]
  · intro hreg
    refine ⟨?_, hhead⟩
    rw [hstep, hreg]
    simp only [if_true, List.singleton_append]

/-- A gateway that first sends an action for an unregistered tool, for the
unknown-tool witness. -/
def unknownToolEnv : DriverEnv :=
  ⟨fun _ => GwResult.reply (s2l "a") (some (Step.action (s2l "qux") [])),
    fun _ _ => ToolOutcome.ok [], fun _ => s2l "stack"⟩

/-- C3, witness: with the unknown-tool gateway, the first step appends a
not-found observation and the loop immediately issues another model call. -/
theorem driver_unknown_tool_continues_witness :
    toolRegistered (s2l "qux") = false ∧
    (actionObservation unknownToolEnv (s2l "qux") [] =
      s2l "Error: Tool '" ++ s2l "qux" ++ s2l "' not found" ++ s2l "\nStack: "
        ++ unknownToolEnv.notFoundStack (s2l "qux") ∧
    runLoop unknownToolEnv [] 0 cliMaxSteps =
      { runLoop unknownToolEnv
          ([] ++ [s2l "a", serializeObservation (actionObservation unknownToolEnv (s2l "qux") [])])
          1 cliMaxSteps with
          events := Event.modelCall ::
            Event.observationAppended (actionObservation unknownToolEnv (s2l "qux") []) ::
              (runLoop unknownToolEnv
                ([] ++ [s2l "a", serializeObservation (actionObservation unknownToolEnv (s2l "qux") [])])
                1 cliMaxSteps).events } ∧
    (runLoop unknownToolEnv
        ([] ++ [s2l "a", serializeObservation (actionObservation unknownToolEnv (s2l "qux") [])])
        1 cliMaxSteps).events.head? = some Event.modelCall) :=
  ⟨by decide,
    (driver_unknown_tool_continues unknownToolEnv [] 0 cliMaxSteps (s2l "a") (s2l "qux") []
      (by decide) rfl).1 (by decide)⟩

/-! ### C9: the ToolNotFound outcome -/

/-- An environment for the unregistered-name case whose not-found stack text
is fixed. -/
def nfEnv : DriverEnv :=
  ⟨fun _ => GwResult.failure [], fun _ _ => ToolOutcome.ok [],
    fun _ => s2l "at dispatch"⟩

/-- An environment in which the registered tool `readFile` itself fails with
a message and stack spelled exactly like the driver's not-found error. -/
def tfEnv : DriverEnv :=
  ⟨fun _ => GwResult.failure [],
    fun _ _ => ToolOutcome.err (s2l "Tool 'qux' not found") (s2l "at dispatch"),
    fun _ => []⟩

/-- C9, counterexample: the unregistered name `qux` and the registered tool
`readFile` failing on its own deliver byte-identical outcomes to the driver —
both travel as a thrown generic `Error` rendered into the same observation
shape, so no consumer of the delivered outcome can distinguish them. -/
theorem toolNotFound_outcome_collision :
    toolRegistered (s2l "qux") = false ∧
    toolRegistered (s2l "readFile") = true ∧
    actionObservation nfEnv (s2l "qux") [] =
      actionObservation tfEnv (s2l "readFile") [] := by
  decide

/-- C9, amended: invoking an unregistered tool name yields the driver's own
thrown `Error` whose message is `Tool '<name>' not found`, delivered through
the same catch path and observation shape (`Error: <message>\nStack:
<stack>`) as a registered tool's failure; the two cases differ only in
message text, not in the shape of the outcome. -/
theorem toolNotFound_observation_shape (env : DriverEnv) (f inp : Str)
    (h : toolRegistered f = false) :
    actionObservation env f inp =
      s2l "Error: Tool '" ++ f ++ s2l "' not found" ++ s2l "\nStack: "
        ++ env.notFoundStack f := by
  rw [actionObservation, if_neg (by simp [h])]

/-- C9, witness for the amended theorem at the concrete name `qux`. -/
theorem toolNotFound_observation_shape_witness :
    toolRegistered (s2l "qux") = false ∧
    actionObservation nfEnv (s2l "qux") [] =
      s2l "Error: Tool '" ++ s2l "qux" ++ s2l "' not found" ++ s2l "\nStack: "
        ++ nfEnv.notFoundStack (s2l "qux") :=
  ⟨by decide, toolNotFound_observation_shape nfEnv (s2l "qux") [] (by decide)⟩

end Agent
